import Mathlib

/-!
# Verification model of fastembed-go (`fastembed.go`)

A shallow embedding of the batch-scheduling, normalization, and model-cache
logic of the fastembed-go library, together with theorems checking the
library's specification against it.

External collaborators (the tokenizer, the ONNX inference engine, the HTTP
transport, the gzip/tar decoder and the filesystem) are modelled at their
boundary: the inference pipeline of one chunk (`onnxEmbed` in the source) is
an explicit function parameter, and the filesystem/network effects of the
artifact store are explicit state passing over a `World` record.
-/

namespace Fastembed

/-! ## Batch scheduler (`Embed`, fastembed.go:199-235)

`Embed(input, batchSize)` defaults a non-positive `batchSize` to 512, walks
`for i := 0; i < len(input); i += batchSize`, and launches one goroutine per
chunk.  Each goroutine computes `onnxEmbed(input[i:end])` with
`end = min(i+batchSize, len(input))`, sends any error on a shared channel,
and does `copy(embeddings[i:end], batchOut)` into the pre-allocated result
slice.  After `wg.Wait()`, the first channel error (if any) is returned with
a nil result; otherwise the result slice is returned.

Concurrency is modelled by executing the chunk tasks sequentially in an
arbitrary completion order `order` (a permutation of the chunk start
indices); theorems quantify over that order. -/

variable {V E : Type}

/-- Values `batchSize <= 0` are replaced by 512 (fastembed.go:200-202). -/
def effectiveBatch (batchSize : Int) : Nat :=
  if batchSize ≤ 0 then 512 else batchSize.toNat

/-- The start indices produced by `for i := s; i < n; i += b`, given the
number `k` of remaining iterations. -/
def chunkStartsAux (b : Nat) : Nat → Nat → List Nat
  | 0, _ => []
  | k + 1, s => s :: chunkStartsAux b k (s + b)

/-- The start indices `0, b, 2b, ...` (each `< n`) of the chunk loop
`for i := 0; i < len(input); i += batchSize` (fastembed.go:208); for
`0 < b` the loop runs `⌈n/b⌉ = (n + b - 1) / b` times. -/
def chunkStarts (n b : Nat) : List Nat :=
  chunkStartsAux b ((n + b - 1) / b) 0

/-- Go slice expression `l[s:e]` (as used in `input[i:end]` and
`data[startIndex:endIndex]`). -/
def goSlice (l : List α) (s e : Nat) : List α := (l.take e).drop s

/-- The shared mutable state of `Embed`: the pre-allocated `embeddings`
slice (entries are `none` until written, modelling nil slots) and the
error channel contents in arrival order. -/
structure SchedState (V E : Type) where
  arr : List (Option V)
  errs : List E

/-- Helper for `copyInto`: positions are tracked by the explicit counter
`i`. -/
def copyIntoAux (s e : Nat) (vals : List V) : Nat → List (Option V) → List (Option V)
  | _, [] => []
  | i, a :: rest =>
      (if s ≤ i ∧ i < min e (s + vals.length) then vals[i - s]? else a) ::
        copyIntoAux s e vals (i + 1) rest

/-- Go's `copy(arr[s:e], vals)`: writes `min (e - s) vals.length` elements
of `vals` into positions `s, s+1, ...` of `arr`, leaving everything else
unchanged (fastembed.go:223). -/
def copyInto (arr : List (Option V)) (s e : Nat) (vals : List V) : List (Option V) :=
  copyIntoAux s e vals 0 arr

/-- One chunk goroutine (fastembed.go:210-225): computes
`onnx (input[s:end])` with `end = min (s+b) input.length`; on error it
appends the error to the channel (and `copy` of the nil result writes
nothing); on success it copies the chunk output into its own slice range. -/
def runChunk (onnx : List String → Except E (List V)) (input : List String) (b : Nat)
    (st : SchedState V E) (s : Nat) : SchedState V E :=
  let e := min (s + b) input.length
  match onnx (goSlice input s e) with
  | .error err => { arr := copyInto st.arr s e [], errs := st.errs ++ [err] }
  | .ok vals => { arr := copyInto st.arr s e vals, errs := st.errs }

/-- Model of `Embed(input, batchSize)` (fastembed.go:199-235), executed under chunk
completion order `order`.  The result slice starts as
`make([][]float32, len(input))` (all nil = `none`); after all tasks ran,
the first recorded error (if any) is returned and the results discarded. -/
def Embed (onnx : List String → Except E (List V)) (input : List String)
    (batchSize : Int) (order : List Nat) : Except E (List (Option V)) :=
  let b := effectiveBatch batchSize
  let final := order.foldl (runChunk onnx input b) ⟨List.replicate input.length none, []⟩
  match final.errs with
  | [] => .ok final.arr
  | e :: _ => .error e

/-- The error recorded by the chunk starting at `s`, if its `onnxEmbed`
call fails. -/
def chunkErr (onnx : List String → Except E (List V)) (input : List String) (b : Nat)
    (s : Nat) : Option E :=
  match onnx (goSlice input s (min (s + b) input.length)) with
  | .error err => some err
  | .ok _ => none

/-- All errors recorded on the error channel, one per failing chunk, in
chunk order. -/
def recordedErrors (onnx : List String → Except E (List V)) (input : List String)
    (b : Nat) : List E :=
  (chunkStarts input.length b).filterMap (chunkErr onnx input b)

/-- The list of chunks `input[i:end]` processed by `Embed` (fastembed.go:208-216). -/
def goChunks (input : List String) (b : Nat) : List (List String) :=
  (chunkStarts input.length b).map fun s => goSlice input s (min (s + b) input.length)

/-- Model of `QueryEmbed(input)` (fastembed.go:237-244): embeds the single string
`"query: " + input` via `onnxEmbed` and returns `data[0]` (modelled as
`data[0]?`, since the Go index expression panics on an empty result). -/
def QueryEmbed (onnx : List String → Except E (List V)) (input : String) :
    Except E (Option V) :=
  match onnx ["query: " ++ input] with
  | .error err => .error err
  | .ok data => .ok data[0]?

/-- Model of `PassageEmbed(input, batchSize)` (fastembed.go:246-252): prepends
`"passage: "` to every input and delegates to `Embed`. -/
def PassageEmbed (onnx : List String → Except E (List V)) (input : List String)
    (batchSize : Int) (order : List Nat) : Except E (List (Option V)) :=
  Embed onnx (input.map fun v => "passage: " ++ v) batchSize order

/-- The final scheduler state, shared by the `Embed` lemmas below. -/
def finalState (onnx : List String → Except E (List V)) (input : List String)
    (batchSize : Int) (order : List Nat) : SchedState V E :=
  order.foldl (runChunk onnx input (effectiveBatch batchSize))
    ⟨List.replicate input.length none, []⟩

/-! ## Artifact store (`retrieveModel`, `downloadFromGcs`, `untar`,
fastembed.go:254-331)

The filesystem and network are external; they are modelled as an explicit
`World` state: `statR` gives the outcome of `os.Stat` on each path,
`httpResp` the HTTP response to the model-archive GET (status code and
status text; `none` models a transport error), `gzipOk` whether the
response body decodes as a gzip/tar stream, and `entries` the relative
paths of the archive's directory and regular-file entries (other tar
entry types are skipped by `untar` and not modelled).  Extraction makes
`target/name` exist for every entry.  The partially-populated directory
left by a mid-stream extraction failure is not modelled (the world is
returned unchanged on that path); no claim depends on it. -/

/-- Model of `filepath.Join` for the two-component joins used here. -/
def pathJoin (a b : String) : String := a ++ "/" ++ b

/-- Outcome of `os.Stat(path)`: the path exists (`err == nil`), does not
exist (`errors.Is(err, fs.ErrNotExist)`), or stat failed for another
reason (e.g. permission denied). -/
inductive StatOutcome where
  | found
  | notExist
  | accessError
deriving DecidableEq

/-- The external filesystem/network state seen by the artifact store. -/
structure World where
  statR : String → StatOutcome
  httpResp : Option (Nat × String)
  gzipOk : Bool
  entries : List String

/-- Result of a `retrieveModel` / `downloadFromGcs` call: the returned
`(string, error)` pair, the filesystem state afterwards, and how many
HTTP GETs and extraction attempts were performed. -/
structure RetrieveResult where
  result : Except String String
  world : World
  netCalls : Nat
  untarCalls : Nat

/-- Model of `untar` (fastembed.go:291-331): on success, every archive entry's
path exists below `target`. -/
def untar (w : World) (target : String) : Except String World :=
  if w.gzipOk then
    Except.ok { w with statR := fun p =>
      (if p ∈ w.entries.map (fun name => pathJoin target name) then .found
       else w.statR p) }
  else Except.error "gzip: invalid header"

/-- Model of `downloadFromGcs` (fastembed.go:261-289): one GET; a transport error
is returned as-is; a status outside 200-299 fails with
`"model download failed: " + response.Status` before any extraction; on a
2xx status the body is extracted into `cacheDir` (the progress-bar
wrapper, when enabled, does not alter the bytes, so the flag has no
observable effect here). -/
def downloadFromGcs (w : World) (model cacheDir : String)
    (showDownloadProgress : Bool) : RetrieveResult :=
  match w.httpResp with
  | none => ⟨Except.error "Get: transport error", w, 1, 0⟩
  | some (code, text) =>
    if code < 200 ∨ code > 299 then
      ⟨Except.error ("model download failed: " ++ text), w, 1, 0⟩
    else
      match untar w cacheDir with
      | Except.error err => ⟨Except.error err, w, 1, 1⟩
      | Except.ok w2 => ⟨Except.ok (pathJoin cacheDir model), w2, 1, 1⟩

/-- Model of `retrieveModel` (fastembed.go:254-259): any `os.Stat` outcome other
than `fs.ErrNotExist` is treated as a cache hit and `cacheDir/model` is
returned immediately, with no download and no inspection of the
directory's contents; only on `fs.ErrNotExist` is the model downloaded. -/
def retrieveModel (w : World) (model cacheDir : String)
    (showDownloadProgress : Bool) : RetrieveResult :=
  if w.statR (pathJoin cacheDir model) ≠ .notExist then
    ⟨Except.ok (pathJoin cacheDir model), w, 0, 0⟩
  else downloadFromGcs w model cacheDir showDownloadProgress

/-! ## Normalizer (`normalize` / `getEmbeddings`, fastembed.go:333-360)

Two models of the same `float32` code, at different fidelity:

* an idealized real-valued model (`normalize`, `sumSquares`,
  `getEmbeddings`), exact arithmetic on `ℝ`, used for the norm-bound and
  pooling/slicing claims; and
* a special-value model (`F`, `normalizeF`), real arithmetic on finite
  values plus IEEE-754 `±Inf`/`NaN` propagation (rounding and overflow
  still not modelled), used for the degenerate all-zero-vector claim,
  where the interesting behaviour is `0/0 = NaN`. -/

noncomputable section

/-- The constant `epsilon := float32(1e-12)` (fastembed.go:339), idealized as the real
number `1e-12`. -/
def epsilon : ℝ := 1e-12

/-- The accumulated `norm` value before `math.Sqrt` is applied:
`for _, val := range v { norm += val * val }` (fastembed.go:334-337). -/
def sumSquares (v : List ℝ) : ℝ := (v.map fun x => x * x).sum

/-- Model of `normalize` (fastembed.go:333-347): each element becomes
`val / math.Sqrt(norm) + epsilon` — the epsilon is added after the
division. -/
def normalize (v : List ℝ) : List ℝ :=
  v.map fun x => x / Real.sqrt (sumSquares v) + epsilon

/-- Model of `getEmbeddings` (fastembed.go:350-360), with the shape
`dimensions = [x, y, z]` passed as three naturals: row `i` of the output
is `normalize(data[i*y*z : i*y*z+z])` — only the first token's slice of
each input's hidden states. -/
def getEmbeddings (data : List ℝ) (x y z : Nat) : List (List ℝ) :=
  (List.range x).map fun i => normalize (goSlice data (i * y * z) (i * y * z + z))

/-- Value classes of `float32`: `fin` carries an exact real (no rounding or
overflow), and the special values follow IEEE 754. -/
inductive F where
  | fin : ℝ → F
  | pinf : F
  | ninf : F
  | nan : F

/-- IEEE-754 addition on value classes; exact on finite values. -/
def F.add : F → F → F
  | .nan, _ => .nan
  | _, .nan => .nan
  | .pinf, .ninf => .nan
  | .ninf, .pinf => .nan
  | .pinf, _ => .pinf
  | _, .pinf => .pinf
  | .ninf, _ => .ninf
  | _, .ninf => .ninf
  | .fin a, .fin b => .fin (a + b)

/-- IEEE-754 multiplication on value classes; exact on finite values. -/
def F.mul : F → F → F
  | .nan, _ => .nan
  | _, .nan => .nan
  | .fin a, .fin b => .fin (a * b)
  | .pinf, .pinf => .pinf
  | .ninf, .ninf => .pinf
  | .pinf, .ninf => .ninf
  | .ninf, .pinf => .ninf
  | .pinf, .fin b => if b = 0 then .nan else if 0 < b then .pinf else .ninf
  | .fin a, .pinf => if a = 0 then .nan else if 0 < a then .pinf else .ninf
  | .ninf, .fin b => if b = 0 then .nan else if 0 < b then .ninf else .pinf
  | .fin a, .ninf => if a = 0 then .nan else if 0 < a then .ninf else .pinf

/-- IEEE-754 division on value classes: `0/0` is `NaN`, `x/0` for finite
nonzero `x` is a signed infinity (the zero's sign is not modelled). -/
def F.div : F → F → F
  | .nan, _ => .nan
  | _, .nan => .nan
  | .pinf, .pinf => .nan
  | .pinf, .ninf => .nan
  | .ninf, .pinf => .nan
  | .ninf, .ninf => .nan
  | .fin _, .pinf => .fin 0
  | .fin _, .ninf => .fin 0
  | .pinf, .fin b => if 0 ≤ b then .pinf else .ninf
  | .ninf, .fin b => if 0 ≤ b then .ninf else .pinf
  | .fin a, .fin b =>
    if b = 0 then (if a = 0 then .nan else if 0 < a then .pinf else .ninf)
    else .fin (a / b)

/-- Model of `math.Sqrt` on value classes: `NaN` for negative arguments. -/
def F.sqrt : F → F
  | .nan => .nan
  | .pinf => .pinf
  | .ninf => .nan
  | .fin x => if x < 0 then .nan else .fin (Real.sqrt x)

/-- The constant `epsilon` as a `float32` value class. -/
def epsilonF : F := .fin 1e-12

/-- The `norm` accumulation loop of `normalize` over value classes
(fastembed.go:334-337). -/
def sumSquaresF (v : List F) : F := v.foldl (fun acc x => acc.add (x.mul x)) (.fin 0)

/-- Model of `normalize` (fastembed.go:333-347) over the `float32` special-value
model: `val / math.Sqrt(norm) + epsilon`, with no guard on `norm == 0`. -/
def normalizeF (v : List F) : List F :=
  v.map fun x => (x.div (sumSquaresF v).sqrt).add epsilonF

end

/-! ## Concrete instances used by the witnesses -/

/-- A componentwise, never-failing inference stub. -/
def lenOnnx : List String → Except Unit (List Nat) :=
  fun xs => Except.ok (xs.map String.length)

/-- An inference stub that fails exactly on singleton chunks. -/
def failOnnx : List String → Except Nat (List Nat) :=
  fun xs => if xs.length = 1 then Except.error 7 else Except.ok (xs.map String.length)

/-- A world whose stat calls fail with a non-not-exist error. -/
def wDenied : World :=
  ⟨fun _ => .accessError, some (200, "200 OK"), true, ["fast-bge-small-en"]⟩

/-- A cold-cache world with a healthy server and archive. -/
def wMiss : World :=
  ⟨fun _ => .notExist, some (200, "200 OK"), true, ["fast-bge-small-en"]⟩

/-- A cold-cache world whose download returns HTTP 404. -/
def w404 : World :=
  ⟨fun _ => .notExist, some (404, "404 Not Found"), true, ["fast-bge-small-en"]⟩

/-! ## Arithmetic facts about the chunk loop -/

lemma chunkStartsAux_getElem? (b : Nat) :
    ∀ (k s idx : Nat),
      (chunkStartsAux b k s)[idx]? = if idx < k then some (s + idx * b) else none := by
  intro k
  induction k with
  | zero => intro s idx; simp [chunkStartsAux]
  | succ k ih =>
    intro s idx
    cases idx with
    | zero => simp [chunkStartsAux]
    | succ idx =>
      simp only [chunkStartsAux, List.getElem?_cons_succ, ih (s + b) idx]
      have harith : s + b + idx * b = s + (idx + 1) * b := by ring
      rcases Nat.lt_or_ge idx k with h | h
      · rw [if_pos h, if_pos (by omega), harith]
      · rw [if_neg (by omega), if_neg (by omega)]

lemma ceil_div_gt_iff (n b k : Nat) (hb : 0 < b) :
    k < (n + b - 1) / b ↔ k * b < n := by
  rw [← Nat.add_one_le_iff, Nat.le_div_iff_mul_le hb]
  have : (k + 1) * b = k * b + b := by ring
  omega

lemma chunkStarts_getElem? (n b k : Nat) (hb : 0 < b) :
    (chunkStarts n b)[k]? = if k * b < n then some (k * b) else none := by
  rw [chunkStarts, chunkStartsAux_getElem?]
  rcases Nat.lt_or_ge (k * b) n with h | h
  · rw [if_pos ((ceil_div_gt_iff n b k hb).2 h), if_pos h, Nat.zero_add]
  · rw [if_neg (by simpa using (ceil_div_gt_iff n b k hb).not.2 (by omega)), if_neg (by omega)]

/-- Every index `i < n` is covered by a chunk: the one starting at
`(i / b) * b`. -/
lemma exists_covering_chunk (n b i : Nat) (hb : 0 < b) (hi : i < n) :
    ∃ s ∈ chunkStarts n b, s ≤ i ∧ i < min (s + b) n := by
  refine ⟨i / b * b, ?_, ?_, ?_⟩
  · have h : (chunkStarts n b)[i / b]? = some (i / b * b) := by
      rw [chunkStarts_getElem? n b _ hb, if_pos]
      exact lt_of_le_of_lt (Nat.div_mul_le_self i b) hi
    exact List.getElem?_mem h
  · exact Nat.div_mul_le_self i b
  · have h1 := Nat.div_add_mod i b
    have h2 := Nat.mod_lt i hb
    have h3 : b * (i / b) = i / b * b := Nat.mul_comm _ _
    omega

lemma effectiveBatch_pos (batchSize : Int) : 0 < effectiveBatch batchSize := by
  unfold effectiveBatch
  split
  · omega
  · omega

/-! ## Behaviour of the scheduler state -/

lemma goSlice_length (l : List α) (s e : Nat) :
    (goSlice l s e).length = min e l.length - s := by
  simp [goSlice]

lemma goSlice_getElem? (l : List α) (s e j : Nat) :
    (goSlice l s e)[j]? = if s + j < e then l[s + j]? else none := by
  rw [goSlice, List.getElem?_drop, List.getElem?_take]

lemma copyIntoAux_length (s e : Nat) (vals : List V) :
    ∀ (l : List (Option V)) (j : Nat), (copyIntoAux s e vals j l).length = l.length := by
  intro l
  induction l with
  | nil => intro j; rfl
  | cons a rest ih => intro j; simp [copyIntoAux, ih]

lemma copyIntoAux_getElem? (s e : Nat) (vals : List V) :
    ∀ (l : List (Option V)) (j k : Nat),
      (copyIntoAux s e vals j l)[k]? =
        (l[k]?).map fun a =>
          if s ≤ j + k ∧ j + k < min e (s + vals.length) then vals[j + k - s]? else a := by
  intro l
  induction l with
  | nil => intro j k; simp [copyIntoAux]
  | cons a rest ih =>
    intro j k
    cases k with
    | zero => simp [copyIntoAux]
    | succ k =>
      simp only [copyIntoAux, List.getElem?_cons_succ, ih (j + 1) k]
      have harith : j + 1 + k = j + (k + 1) := by omega
      rw [harith]

lemma runChunk_arr_length (onnx : List String → Except E (List V)) (input : List String)
    (b : Nat) (st : SchedState V E) (s : Nat) :
    ((runChunk onnx input b st s).arr).length = st.arr.length := by
  rcases h : onnx (goSlice input s (min (s + b) input.length)) with err | vals <;>
    simp [runChunk, h, copyInto, copyIntoAux_length]

lemma foldl_runChunk_arr_length (onnx : List String → Except E (List V))
    (input : List String) (b : Nat) :
    ∀ (order : List Nat) (st : SchedState V E),
      ((order.foldl (runChunk onnx input b) st).arr).length = st.arr.length := by
  intro order
  induction order with
  | nil => intro st; rfl
  | cons s rest ih => intro st; rw [List.foldl_cons, ih, runChunk_arr_length]

lemma foldl_runChunk_errs (onnx : List String → Except E (List V))
    (input : List String) (b : Nat) :
    ∀ (order : List Nat) (st : SchedState V E),
      (order.foldl (runChunk onnx input b) st).errs =
        st.errs ++ order.filterMap (chunkErr onnx input b) := by
  intro order
  induction order with
  | nil => intro st; simp
  | cons s rest ih =>
    intro st
    rw [List.foldl_cons, ih]
    rcases h : onnx (goSlice input s (min (s + b) input.length)) with err | vals <;>
      simp [runChunk, chunkErr, h]

/-- Under a componentwise inference function, the chunk task starting at
`s` writes exactly the positions it covers, each with the embedding of the
corresponding input. -/
lemma runChunk_arr_getElem? (onnx : List String → Except E (List V)) (emb : String → V)
    (input : List String) (b : Nat)
    (honnx : ∀ xs, onnx xs = Except.ok (xs.map emb))
    (st : SchedState V E) (s i : Nat)
    (hst : st.arr.length = input.length) (hi : i < input.length) :
    ((runChunk onnx input b st s).arr)[i]? =
      if s ≤ i ∧ i < min (s + b) input.length
      then some (some (emb input[i]))
      else st.arr[i]? := by
  have hok := honnx (goSlice input s (min (s + b) input.length))
  obtain ⟨a0, ha0⟩ : ∃ a0, st.arr[i]? = some a0 :=
    ⟨_, List.getElem?_eq_getElem (by omega)⟩
  simp only [runChunk, hok]
  rw [copyInto, copyIntoAux_getElem?, ha0, Option.map_some']
  have hvlen : ((goSlice input s (min (s + b) input.length)).map emb).length =
      min (min (s + b) input.length) input.length - s := by
    rw [List.length_map, goSlice_length]
  by_cases hcov : s ≤ i ∧ i < min (s + b) input.length
  · rw [if_pos (by omega), if_pos (by omega)]
    have hij : s + (0 + i - s) = i := by omega
    rw [List.getElem?_map, goSlice_getElem?, if_pos (by omega), hij,
        List.getElem?_eq_getElem hi, Option.map_some']
  · rw [if_neg (by omega), if_neg (by omega)]

lemma foldl_runChunk_arr_getElem? (onnx : List String → Except E (List V)) (emb : String → V)
    (input : List String) (b : Nat)
    (honnx : ∀ xs, onnx xs = Except.ok (xs.map emb)) (i : Nat) (hi : i < input.length) :
    ∀ (order : List Nat) (st : SchedState V E), st.arr.length = input.length →
      ((order.foldl (runChunk onnx input b) st).arr)[i]? =
        if ∃ s ∈ order, s ≤ i ∧ i < min (s + b) input.length
        then some (some (emb input[i]))
        else st.arr[i]? := by
  intro order
  induction order with
  | nil => intro st _; simp
  | cons s rest ih =>
    intro st hst
    rw [List.foldl_cons, ih _ (by rw [runChunk_arr_length]; exact hst),
        runChunk_arr_getElem? onnx emb input b honnx st s i hst hi]
    by_cases h1 : ∃ x ∈ rest, x ≤ i ∧ i < min (x + b) input.length
    · rcases h1 with ⟨x, hx, hxc⟩
      rw [if_pos ⟨x, hx, hxc⟩, if_pos ⟨x, List.mem_cons_of_mem s hx, hxc⟩]
    · rw [if_neg h1]
      by_cases h2 : s ≤ i ∧ i < min (s + b) input.length
      · rw [if_pos h2, if_pos ⟨s, List.mem_cons_self s rest, h2⟩]
      · rw [if_neg h2, if_neg (by
          rintro ⟨x, hx, hxc⟩
          rcases List.mem_cons.1 hx with rfl | hmem
          · exact h2 hxc
          · exact h1 ⟨x, hmem, hxc⟩)]

lemma Embed_eq_match (onnx : List String → Except E (List V)) (input : List String)
    (batchSize : Int) (order : List Nat) :
    Embed onnx input batchSize order =
      match (finalState onnx input batchSize order).errs with
      | [] => .ok (finalState onnx input batchSize order).arr
      | e :: _ => .error e := rfl

/-- Order-preservation core: under a componentwise inference function and
any completion order that is a permutation of the chunk tasks, `Embed`
succeeds and fills slot `i` with the embedding of input `i`. -/
lemma Embed_mapwise (onnx : List String → Except E (List V)) (emb : String → V)
    (honnx : ∀ xs, onnx xs = Except.ok (xs.map emb))
    (input : List String) (batchSize : Int) (order : List Nat)
    (horder : order.Perm (chunkStarts input.length (effectiveBatch batchSize))) :
    ∃ res, Embed onnx input batchSize order = Except.ok res ∧
      res.length = input.length ∧
      ∀ i, (hi : i < input.length) → res[i]? = some (some (emb input[i])) := by
  have herrs : (finalState onnx input batchSize order).errs = [] := by
    rw [finalState, foldl_runChunk_errs]
    have hnone : chunkErr onnx input (effectiveBatch batchSize) = fun _ => (none : Option E) := by
      funext s; rw [chunkErr, honnx]
    simp [hnone]
  refine ⟨(finalState onnx input batchSize order).arr, ?_, ?_, ?_⟩
  · rw [Embed_eq_match, herrs]
  · rw [finalState, foldl_runChunk_arr_length]
    exact List.length_replicate _ _
  · intro i hi
    rw [finalState, foldl_runChunk_arr_getElem? onnx emb input (effectiveBatch batchSize)
      honnx i hi order _ (by simp)]
    rw [if_pos]
    obtain ⟨s, hs, hc⟩ :=
      exists_covering_chunk input.length (effectiveBatch batchSize) i
        (effectiveBatch_pos batchSize) hi
    exact ⟨s, horder.mem_iff.2 hs, hc⟩

/-- Error-policy core: with all tasks finished, `Embed` returns the first
recorded error when any chunk failed, and the (length-`n`) result slice
when none did. -/
lemma Embed_errors (onnx : List String → Except E (List V)) (input : List String)
    (batchSize : Int) (order : List Nat)
    (horder : order.Perm (chunkStarts input.length (effectiveBatch batchSize))) :
    (recordedErrors onnx input (effectiveBatch batchSize) ≠ [] →
        ∃ err, Embed onnx input batchSize order = Except.error err ∧
          err ∈ recordedErrors onnx input (effectiveBatch batchSize)) ∧
    (recordedErrors onnx input (effectiveBatch batchSize) = [] →
        ∃ res, Embed onnx input batchSize order = Except.ok res ∧
          res.length = input.length) := by
  have herrs : (finalState onnx input batchSize order).errs =
      order.filterMap (chunkErr onnx input (effectiveBatch batchSize)) := by
    rw [finalState, foldl_runChunk_errs]; simp
  have hperm : (order.filterMap (chunkErr onnx input (effectiveBatch batchSize))).Perm
      (recordedErrors onnx input (effectiveBatch batchSize)) :=
    horder.filterMap _
  constructor
  · intro hne
    rcases hfm : order.filterMap (chunkErr onnx input (effectiveBatch batchSize)) with
      _ | ⟨err, rest⟩
    · exact absurd (hfm ▸ hperm).symm.eq_nil hne
    · refine ⟨err, ?_, ?_⟩
      · rw [Embed_eq_match, herrs, hfm]
      · exact hperm.mem_iff.1 (by rw [hfm]; exact List.mem_cons_self _ _)
  · intro hnil
    refine ⟨(finalState onnx input batchSize order).arr, ?_, ?_⟩
    · have hfm0 : order.filterMap (chunkErr onnx input (effectiveBatch batchSize)) = [] :=
        (hnil ▸ hperm).eq_nil
      rw [Embed_eq_match, herrs, hfm0]
    · rw [finalState, foldl_runChunk_arr_length]
      exact List.length_replicate _ _

/-! ## Partition structure of the chunks -/

lemma drop_take_append_drop (l : List α) (s e : Nat) (hse : s ≤ e) (hen : e ≤ l.length) :
    (l.take e).drop s ++ l.drop e = l.drop s := by
  conv_rhs => rw [← List.take_append_drop e l]
  rw [List.drop_append_eq_append_drop]
  have hlen : (l.take e).length = e := by simp [List.length_take]; omega
  rw [hlen, Nat.sub_eq_zero_of_le hse, List.drop_zero]

lemma chunkStartsAux_flatten (input : List String) (b : Nat) (hb : 0 < b) :
    ∀ (k s : Nat), input.length ≤ s + k * b →
      ((chunkStartsAux b k s).map fun x =>
          goSlice input x (min (x + b) input.length)).flatten = input.drop s := by
  intro k
  induction k with
  | zero =>
    intro s hs
    rw [chunkStartsAux, List.map_nil, List.flatten_nil,
      List.drop_eq_nil_of_le (by omega)]
  | succ k ih =>
    intro s hs
    have hs2 : input.length ≤ s + b + k * b := by
      have : (k + 1) * b = k * b + b := by ring
      omega
    rw [chunkStartsAux, List.map_cons, List.flatten_cons, ih (s + b) hs2]
    rcases Nat.lt_or_ge s input.length with hlt | hge
    · have hdropeq : input.drop (s + b) = input.drop (min (s + b) input.length) := by
        rcases Nat.le_total (s + b) input.length with h | h
        · rw [Nat.min_eq_left h]
        · rw [Nat.min_eq_right h, List.drop_eq_nil_of_le h,
            List.drop_eq_nil_of_le (Nat.le_refl _)]
      rw [hdropeq, goSlice]
      exact drop_take_append_drop input s (min (s + b) input.length) (by omega) (by omega)
    · have h1 : (input.take (min (s + b) input.length)).drop s = [] :=
        List.drop_eq_nil_of_le (by simp [List.length_take]; omega)
      have h2 : input.drop (s + b) = [] := List.drop_eq_nil_of_le (by omega)
      have h3 : input.drop s = [] := List.drop_eq_nil_of_le (by omega)
      rw [goSlice, h1, h2, h3, List.nil_append]

lemma goChunks_flatten (input : List String) (b : Nat) (hb : 0 < b) :
    (goChunks input b).flatten = input := by
  have hcount : input.length ≤ ((input.length + b - 1) / b) * b := by
    by_contra h
    exact absurd ((ceil_div_gt_iff input.length b _ hb).2 (Nat.lt_of_not_le h))
      (lt_irrefl _)
  rw [goChunks, chunkStarts,
    chunkStartsAux_flatten input b hb ((input.length + b - 1) / b) 0 (by omega),
    List.drop_zero]

lemma goChunks_getElem? (input : List String) (b k : Nat) (hb : 0 < b) :
    (goChunks input b)[k]? =
      if k * b < input.length
      then some (goSlice input (k * b) (min (k * b + b) input.length))
      else none := by
  rw [goChunks, List.getElem?_map, chunkStarts_getElem? _ _ _ hb]
  by_cases hk : k * b < input.length
  · rw [if_pos hk, if_pos hk, Option.map_some']
  · rw [if_neg hk, if_neg hk, Option.map_none']

/-! ## Claims about the batch scheduler -/

/-- C1: For every input list and every valid chunk size, the sequence
returned by `Embed` has the same length as the input and its `i`-th
element is the embedding of the `i`-th input string, independent of the
order in which concurrent chunk tasks complete (each chunk writes only
its own `[start,end)` slice of the pre-allocated result container). -/
theorem Embed_order_preservation (onnx : List String → Except E (List V)) (emb : String → V)
    (honnx : ∀ xs, onnx xs = Except.ok (xs.map emb))
    (input : List String) (batchSize : Int) (order : List Nat)
    (horder : order.Perm (chunkStarts input.length (effectiveBatch batchSize))) :
    ∃ res, Embed onnx input batchSize order = Except.ok res ∧
      res.length = input.length ∧
      ∀ i, (hi : i < input.length) → res[i]? = some (some (emb input[i])) :=
  Embed_mapwise onnx emb honnx input batchSize order horder

theorem Embed_order_preservation_witness :
    ∃ res, Embed lenOnnx ["a", "bb", "ccc"] 2 [2, 0] = Except.ok res ∧
      res.length = (["a", "bb", "ccc"] : List String).length ∧
      ∀ i, (hi : i < (["a", "bb", "ccc"] : List String).length) →
        res[i]? = some (some (String.length (["a", "bb", "ccc"] : List String)[i])) :=
  Embed_order_preservation lenOnnx String.length (fun _ => rfl) ["a", "bb", "ccc"] 2 [2, 0]
    (by decide)

/-- C4: For every input list, `Embed` partitions the inputs into
contiguous chunks of size `batchSize` in input order, with only the final
chunk possibly shorter (every chunk is nonempty, no chunk exceeds the
chunk size, and a chunk shorter than the chunk size is the last one); if
`batchSize` is non-positive, the chunk size 512 is used instead. -/
theorem Embed_chunk_partition (input : List String) (batchSize : Int) :
    (goChunks input (effectiveBatch batchSize)).flatten = input ∧
    (∀ k c, (goChunks input (effectiveBatch batchSize))[k]? = some c →
      0 < c.length ∧ c.length ≤ effectiveBatch batchSize ∧
      (c.length < effectiveBatch batchSize →
        (goChunks input (effectiveBatch batchSize))[k + 1]? = none)) ∧
    (batchSize ≤ 0 → effectiveBatch batchSize = 512) ∧
    (0 < batchSize → (effectiveBatch batchSize : Int) = batchSize) := by
  have hb : 0 < effectiveBatch batchSize := effectiveBatch_pos batchSize
  refine ⟨goChunks_flatten input _ hb, ?_, ?_, ?_⟩
  · intro k c hkc
    rw [goChunks_getElem? input _ k hb] at hkc
    by_cases hk : k * effectiveBatch batchSize < input.length
    · rw [if_pos hk] at hkc
      obtain rfl : c = goSlice input (k * effectiveBatch batchSize)
          ((k * effectiveBatch batchSize + effectiveBatch batchSize) ⊓ input.length) :=
        (Option.some_inj.1 hkc).symm
      have hlen := goSlice_length input (k * effectiveBatch batchSize)
        (min (k * effectiveBatch batchSize + effectiveBatch batchSize) input.length)
      refine ⟨by omega, by omega, ?_⟩
      intro hshort
      rw [goChunks_getElem? input _ (k + 1) hb, if_neg]
      have : (k + 1) * effectiveBatch batchSize =
          k * effectiveBatch batchSize + effectiveBatch batchSize := by ring
      omega
    · rw [if_neg hk] at hkc
      exact absurd hkc (by simp)
  · intro h; rw [effectiveBatch, if_pos h]
  · intro h
    rw [effectiveBatch, if_neg (by omega)]
    exact Int.toNat_of_nonneg (le_of_lt h)

theorem Embed_chunk_partition_witness :
    (goChunks ["a", "bb", "ccc"] (effectiveBatch (-1))).flatten = ["a", "bb", "ccc"] ∧
    effectiveBatch (-1) = 512 :=
  ⟨(Embed_chunk_partition ["a", "bb", "ccc"] (-1)).1,
   (Embed_chunk_partition ["a", "bb", "ccc"] (-1)).2.2.1 (by omega)⟩

/-- C5: When any chunk task of `Embed` fails, the scheduler still waits
for all tasks to finish, then returns exactly one of the recorded errors
and no result sequence (partial results are discarded); when no task
fails, it returns the full result sequence and no error. -/
theorem Embed_failure_policy (onnx : List String → Except E (List V)) (input : List String)
    (batchSize : Int) (order : List Nat)
    (horder : order.Perm (chunkStarts input.length (effectiveBatch batchSize))) :
    (recordedErrors onnx input (effectiveBatch batchSize) ≠ [] →
        ∃ err, Embed onnx input batchSize order = Except.error err ∧
          err ∈ recordedErrors onnx input (effectiveBatch batchSize)) ∧
    (recordedErrors onnx input (effectiveBatch batchSize) = [] →
        ∃ res, Embed onnx input batchSize order = Except.ok res ∧
          res.length = input.length) :=
  Embed_errors onnx input batchSize order horder

theorem Embed_failure_policy_witness :
    ∃ err, Embed failOnnx ["a", "bb", "ccc"] 2 [2, 0] = Except.error err ∧
      err ∈ recordedErrors failOnnx ["a", "bb", "ccc"] (effectiveBatch 2) :=
  (Embed_failure_policy failOnnx ["a", "bb", "ccc"] 2 [2, 0] (by decide)).1 (by decide)

/-- C8: `QueryEmbed text` embeds the single string obtained by prepending
the literal `"query: "` to the input, as a batch of one, and returns that
one vector; `PassageEmbed inputs batchSize` prepends the literal
`"passage: "` to every input string, preserving order, and delegates to
`Embed` with the same batch size. -/
theorem QueryEmbed_PassageEmbed_prefixing (onnx : List String → Except E (List V))
    (emb : String → V) (honnx : ∀ xs, onnx xs = Except.ok (xs.map emb))
    (text : String) (input : List String) (batchSize : Int) (order : List Nat)
    (horder : order.Perm (chunkStarts input.length (effectiveBatch batchSize))) :
    QueryEmbed onnx text = Except.ok (some (emb ("query: " ++ text))) ∧
    ∃ res, PassageEmbed onnx input batchSize order = Except.ok res ∧
      res.length = input.length ∧
      ∀ i, (hi : i < input.length) →
        res[i]? = some (some (emb ("passage: " ++ input[i]))) := by
  constructor
  · rw [QueryEmbed, honnx]
    simp
  · obtain ⟨res, h1, h2, h3⟩ := Embed_mapwise onnx emb honnx
      (input.map fun v => "passage: " ++ v) batchSize order
      (by rwa [List.length_map])
    refine ⟨res, h1, by rwa [List.length_map] at h2, ?_⟩
    intro i hi
    have hx := h3 i (by rwa [List.length_map])
    rwa [List.getElem_map] at hx

theorem QueryEmbed_PassageEmbed_prefixing_witness :
    QueryEmbed lenOnnx "x" = Except.ok (some (String.length ("query: " ++ "x"))) ∧
    ∃ res, PassageEmbed lenOnnx ["x", "yy"] 1 [1, 0] = Except.ok res ∧
      res.length = (["x", "yy"] : List String).length ∧
      ∀ i, (hi : i < (["x", "yy"] : List String).length) →
        res[i]? = some (some (String.length ("passage: " ++ (["x", "yy"] : List String)[i]))) :=
  QueryEmbed_PassageEmbed_prefixing lenOnnx String.length (fun _ => rfl) "x" ["x", "yy"] 1
    [1, 0] (by decide)

/-! ## Claims about the artifact store -/

/-- C6: Resolving a model identifier when the directory `cacheDir/model`
already exists returns that path immediately with no network I/O and no
validation of the directory's contents; hence (when the archive contains
the model directory, as the remote artifact layout guarantees) resolving
the same model twice with the same cache directory performs network I/O
at most once, and the second resolution returns the same path without a
network call. -/
theorem retrieveModel_cache_idempotent (w : World) (model cacheDir : String) (sp : Bool)
    (harch : model ∈ w.entries) :
    (w.statR (pathJoin cacheDir model) ≠ .notExist →
      retrieveModel w model cacheDir sp = ⟨Except.ok (pathJoin cacheDir model), w, 0, 0⟩) ∧
    (∀ p, (retrieveModel w model cacheDir sp).result = Except.ok p →
      p = pathJoin cacheDir model ∧
      (retrieveModel w model cacheDir sp).netCalls ≤ 1 ∧
      retrieveModel (retrieveModel w model cacheDir sp).world model cacheDir sp =
        ⟨Except.ok p, (retrieveModel w model cacheDir sp).world, 0, 0⟩) := by
  constructor
  · intro hstat
    rw [retrieveModel, if_pos hstat]
  · intro p hp
    by_cases hstat : w.statR (pathJoin cacheDir model) ≠ .notExist
    · have hr : retrieveModel w model cacheDir sp =
          ⟨Except.ok (pathJoin cacheDir model), w, 0, 0⟩ := by
        rw [retrieveModel, if_pos hstat]
      rw [hr] at hp
      simp only [Except.ok.injEq] at hp
      obtain rfl : p = pathJoin cacheDir model := hp.symm
      refine ⟨rfl, ?_, ?_⟩
      · simp [hr]
      · rw [hr]
        simp only
        rw [retrieveModel, if_pos hstat]
    · rcases hresp : w.httpResp with _ | ⟨code, text⟩
      · have hr : retrieveModel w model cacheDir sp =
            ⟨Except.error "Get: transport error", w, 1, 0⟩ := by
          rw [retrieveModel, if_neg hstat]
          simp only [downloadFromGcs, hresp]
        rw [hr] at hp
        simp at hp
      · by_cases hcode : code < 200 ∨ code > 299
        · have hr : retrieveModel w model cacheDir sp =
              ⟨Except.error ("model download failed: " ++ text), w, 1, 0⟩ := by
            rw [retrieveModel, if_neg hstat]
            simp only [downloadFromGcs, hresp]
            rw [if_pos hcode]
          rw [hr] at hp
          simp at hp
        · rcases hgz : w.gzipOk with _ | _
          · have huntar : untar w cacheDir = Except.error "gzip: invalid header" := by
              simp [untar, hgz]
            have hr : retrieveModel w model cacheDir sp =
                ⟨Except.error "gzip: invalid header", w, 1, 1⟩ := by
              rw [retrieveModel, if_neg hstat]
              simp only [downloadFromGcs, hresp]
              rw [if_neg hcode, huntar]
            rw [hr] at hp
            simp at hp
          · have huntar : untar w cacheDir = Except.ok
                { w with statR := fun q =>
                    (if q ∈ w.entries.map (fun name => pathJoin cacheDir name) then .found
                     else w.statR q) } := by
              rw [untar, if_pos hgz]
            have hr : retrieveModel w model cacheDir sp =
                ⟨Except.ok (pathJoin cacheDir model),
                 { w with statR := fun q =>
                     (if q ∈ w.entries.map (fun name => pathJoin cacheDir name) then .found
                      else w.statR q) }, 1, 1⟩ := by
              rw [retrieveModel, if_neg hstat]
              simp only [downloadFromGcs, hresp]
              rw [if_neg hcode, huntar, hresp]
            rw [hr] at hp
            simp only [Except.ok.injEq] at hp
            obtain rfl : p = pathJoin cacheDir model := hp.symm
            have hmem : pathJoin cacheDir model ∈
                w.entries.map (fun name => pathJoin cacheDir name) :=
              List.mem_map_of_mem _ harch
            refine ⟨rfl, ?_, ?_⟩
            · simp [hr]
            · rw [hr]
              simp only
              rw [retrieveModel, if_pos]
              simp only [if_pos hmem]
              exact fun h => StatOutcome.noConfusion h

theorem retrieveModel_cache_idempotent_witness :
    "fast-bge-small-en" ∈ wMiss.entries ∧
    ((retrieveModel wMiss "fast-bge-small-en" "local_cache" true).netCalls ≤ 1 ∧
      retrieveModel (retrieveModel wMiss "fast-bge-small-en" "local_cache" true).world
          "fast-bge-small-en" "local_cache" true =
        ⟨Except.ok (pathJoin "local_cache" "fast-bge-small-en"),
         (retrieveModel wMiss "fast-bge-small-en" "local_cache" true).world, 0, 0⟩) := by
  refine ⟨by decide, ?_⟩
  have h := (retrieveModel_cache_idempotent wMiss "fast-bge-small-en" "local_cache" true
    (by decide)).2 (pathJoin "local_cache" "fast-bge-small-en") (by rfl)
  exact ⟨h.2.1, h.2.2⟩

/-- C7: On a cache miss, if the HTTP GET of the model archive returns a
status outside the 2xx range, model retrieval fails with a download error
whose message includes the server's status text, and no extraction is
attempted. -/
theorem downloadFromGcs_bad_status (w : World) (model cacheDir : String) (sp : Bool)
    (code : Nat) (text : String) (hresp : w.httpResp = some (code, text))
    (hbad : code < 200 ∨ code > 299) :
    downloadFromGcs w model cacheDir sp =
      ⟨Except.error ("model download failed: " ++ text), w, 1, 0⟩ := by
  rw [downloadFromGcs, hresp]
  exact if_pos hbad

theorem downloadFromGcs_bad_status_witness :
    downloadFromGcs w404 "fast-bge-small-en" "local_cache" true =
      ⟨Except.error ("model download failed: " ++ "404 Not Found"), w404, 1, 0⟩ :=
  downloadFromGcs_bad_status w404 "fast-bge-small-en" "local_cache" true 404 "404 Not Found"
    rfl (by omega)

/-- C10: The cache check treats any stat outcome other than a not-exist
error as a cache hit: if stat on `cacheDir/model` fails for any other
reason (e.g. permission denied), `retrieveModel` still returns the path
with no error and no download, so a filesystem error at the cache check
is never surfaced to the caller. -/
theorem retrieveModel_stat_error_is_hit (w : World) (model cacheDir : String) (sp : Bool)
    (hstat : w.statR (pathJoin cacheDir model) = .accessError) :
    retrieveModel w model cacheDir sp = ⟨Except.ok (pathJoin cacheDir model), w, 0, 0⟩ := by
  rw [retrieveModel, if_pos (by rw [hstat]; exact fun h => StatOutcome.noConfusion h)]

theorem retrieveModel_stat_error_is_hit_witness :
    retrieveModel wDenied "fast-bge-small-en" "local_cache" false =
      ⟨Except.ok (pathJoin "local_cache" "fast-bge-small-en"), wDenied, 0, 0⟩ :=
  retrieveModel_stat_error_is_hit wDenied "fast-bge-small-en" "local_cache" false rfl

/-! ## Facts about the real-valued normalizer -/

lemma sumSquares_nonneg (v : List ℝ) : 0 ≤ sumSquares v := by
  apply List.sum_nonneg
  intro x hx
  obtain ⟨y, _, rfl⟩ := List.mem_map.1 hx
  exact mul_self_nonneg y

lemma sumSquares_cons (x : ℝ) (l : List ℝ) :
    sumSquares (x :: l) = x * x + sumSquares l := by
  simp [sumSquares]

/-- Cauchy-Schwarz against the all-ones vector. -/
lemma sq_sum_le_length_mul_sumSquares (v : List ℝ) :
    v.sum ^ 2 ≤ (v.length : ℝ) * sumSquares v := by
  induction v with
  | nil => simp [sumSquares]
  | cons a l ih =>
    have hq : 0 ≤ sumSquares l := sumSquares_nonneg l
    rw [sumSquares_cons, List.sum_cons, List.length_cons]
    push_cast
    rcases Nat.eq_zero_or_pos l.length with h0 | h0
    · obtain rfl := List.length_eq_zero.1 h0
      simp [sumSquares]
      nlinarith [hq]
    · have hn : (0 : ℝ) < (l.length : ℝ) := by exact_mod_cast h0
      have k1 : 2 * a * l.sum * (l.length : ℝ) ≤
          (l.length : ℝ) ^ 2 * a ^ 2 + l.sum ^ 2 := by
        nlinarith [sq_nonneg ((l.length : ℝ) * a - l.sum)]
      have k2 : (l.length : ℝ) * l.sum ^ 2 ≤
          (l.length : ℝ) * ((l.length : ℝ) * sumSquares l) :=
        mul_le_mul_of_nonneg_left ih (le_of_lt hn)
      have k3 : (l.length : ℝ) * (a + l.sum) ^ 2 ≤
          (l.length : ℝ) * (((l.length : ℝ) + 1) * (a * a + sumSquares l)) := by
        nlinarith [k1, k2, ih, hq]
      exact (mul_le_mul_left hn).1 k3

lemma sumSquares_map_affine (v : List ℝ) (a b : ℝ) :
    sumSquares (v.map fun x => x * a + b) =
      sumSquares v * a ^ 2 + 2 * a * b * v.sum + (v.length : ℝ) * b ^ 2 := by
  induction v with
  | nil => simp [sumSquares]
  | cons x l ih =>
    rw [List.map_cons, sumSquares_cons, ih, sumSquares_cons, List.sum_cons,
      List.length_cons]
    push_cast
    ring

/-! ## Claims about the normalizer -/

/-- C2: For every returned embedding vector `v` that is non-degenerate
(not all-zero before normalization), the Euclidean norm
`sqrt (sum v_i^2)` of the returned vector equals
`1 + epsilon * sqrt dim` within floating-point tolerance (the deviation
is at most `2 * epsilon * sqrt dim`, about `4e-11` at `dim = 384`, far
below `float32` resolution), where `epsilon = 1e-12` and `dim` is the
vector dimension, as a consequence of adding epsilon after the division
in normalization. -/
theorem normalize_norm_bias (v : List ℝ) (hv : sumSquares v ≠ 0) :
    |Real.sqrt (sumSquares (normalize v)) - (1 + epsilon * Real.sqrt v.length)| ≤
      2 * epsilon * Real.sqrt v.length := by
  have hS0 : 0 ≤ sumSquares v := sumSquares_nonneg v
  have hS : 0 < sumSquares v := lt_of_le_of_ne hS0 (Ne.symm hv)
  have hc : 0 < Real.sqrt (sumSquares v) := Real.sqrt_pos.2 hS
  have hc2 : Real.sqrt (sumSquares v) ^ 2 = sumSquares v := Real.sq_sqrt hS0
  have hd0 : (0 : ℝ) ≤ (v.length : ℝ) := Nat.cast_nonneg _
  have hsqd : Real.sqrt (v.length : ℝ) ^ 2 = (v.length : ℝ) := Real.sq_sqrt hd0
  have heps : (0 : ℝ) < epsilon := by norm_num [epsilon]
  have hu0 : 0 ≤ epsilon * Real.sqrt (v.length : ℝ) :=
    mul_nonneg (le_of_lt heps) (Real.sqrt_nonneg _)
  have hcinv : (Real.sqrt (sumSquares v))⁻¹ * Real.sqrt (sumSquares v) = 1 :=
    inv_mul_cancel₀ (ne_of_gt hc)
  have hnorm_eq : normalize v = v.map fun x => x * (Real.sqrt (sumSquares v))⁻¹ + epsilon := by
    simp [normalize, div_eq_mul_inv]
  have h1 : sumSquares v * ((Real.sqrt (sumSquares v))⁻¹) ^ 2 = 1 := by
    rw [← hc2]
    field_simp
  have hexp : sumSquares (normalize v) =
      1 + 2 * (Real.sqrt (sumSquares v))⁻¹ * epsilon * v.sum +
        (v.length : ℝ) * epsilon ^ 2 := by
    rw [hnorm_eq, sumSquares_map_affine, h1]
  have hT : |v.sum| ≤ Real.sqrt (v.length : ℝ) * Real.sqrt (sumSquares v) := by
    have h2 : v.sum ^ 2 ≤ (v.length : ℝ) * sumSquares v := sq_sum_le_length_mul_sumSquares v
    have h3 : |v.sum| = Real.sqrt (v.sum ^ 2) := (Real.sqrt_sq_eq_abs _).symm
    rw [h3, ← Real.sqrt_mul hd0]
    exact Real.sqrt_le_sqrt h2
  have hTu := (abs_le.1 hT).2
  have hTl := (abs_le.1 hT).1
  have hinv0 : 0 ≤ (Real.sqrt (sumSquares v))⁻¹ := le_of_lt (inv_pos.2 hc)
  have keyu : 2 * (Real.sqrt (sumSquares v))⁻¹ * epsilon * v.sum ≤
      2 * epsilon * Real.sqrt (v.length : ℝ) := by
    calc 2 * (Real.sqrt (sumSquares v))⁻¹ * epsilon * v.sum
        = 2 * epsilon * (Real.sqrt (sumSquares v))⁻¹ * v.sum := by ring
      _ ≤ 2 * epsilon * (Real.sqrt (sumSquares v))⁻¹ *
          (Real.sqrt (v.length : ℝ) * Real.sqrt (sumSquares v)) := by
          apply mul_le_mul_of_nonneg_left hTu
          positivity
      _ = 2 * epsilon * Real.sqrt (v.length : ℝ) *
          ((Real.sqrt (sumSquares v))⁻¹ * Real.sqrt (sumSquares v)) := by ring
      _ = 2 * epsilon * Real.sqrt (v.length : ℝ) := by rw [hcinv, mul_one]
  have keyl : -(2 * epsilon * Real.sqrt (v.length : ℝ)) ≤
      2 * (Real.sqrt (sumSquares v))⁻¹ * epsilon * v.sum := by
    calc -(2 * epsilon * Real.sqrt (v.length : ℝ))
        = 2 * epsilon * Real.sqrt (v.length : ℝ) *
          -((Real.sqrt (sumSquares v))⁻¹ * Real.sqrt (sumSquares v)) := by
          rw [hcinv]; ring
      _ = 2 * epsilon * (Real.sqrt (sumSquares v))⁻¹ *
          -(Real.sqrt (v.length : ℝ) * Real.sqrt (sumSquares v)) := by ring
      _ ≤ 2 * epsilon * (Real.sqrt (sumSquares v))⁻¹ * v.sum := by
          apply mul_le_mul_of_nonneg_left hTl
          positivity
      _ = 2 * (Real.sqrt (sumSquares v))⁻¹ * epsilon * v.sum := by ring
  have hup : sumSquares (normalize v) ≤ (1 + epsilon * Real.sqrt (v.length : ℝ)) ^ 2 := by
    rw [hexp]
    nlinarith [hsqd]
  have hlow : (1 - epsilon * Real.sqrt (v.length : ℝ)) ^ 2 ≤ sumSquares (normalize v) := by
    rw [hexp]
    nlinarith [hsqd]
  have hsu : Real.sqrt (sumSquares (normalize v)) ≤ 1 + epsilon * Real.sqrt (v.length : ℝ) := by
    have h4 := Real.sqrt_le_sqrt hup
    rwa [Real.sqrt_sq (by positivity)] at h4
  have hsl : 1 - epsilon * Real.sqrt (v.length : ℝ) ≤
      Real.sqrt (sumSquares (normalize v)) := by
    have h5 := Real.sqrt_le_sqrt hlow
    rw [Real.sqrt_sq_eq_abs] at h5
    calc 1 - epsilon * Real.sqrt (v.length : ℝ)
        ≤ |1 - epsilon * Real.sqrt (v.length : ℝ)| := le_abs_self _
      _ ≤ Real.sqrt (sumSquares (normalize v)) := h5
  rw [abs_le]
  constructor <;> linarith

theorem normalize_norm_bias_witness :
    sumSquares [(3 : ℝ), 4] ≠ 0 ∧
    |Real.sqrt (sumSquares (normalize [(3 : ℝ), 4])) -
        (1 + epsilon * Real.sqrt (([(3 : ℝ), 4] : List ℝ).length : ℝ))| ≤
      2 * epsilon * Real.sqrt (([(3 : ℝ), 4] : List ℝ).length : ℝ) := by
  have h : sumSquares [(3 : ℝ), 4] ≠ 0 := by norm_num [sumSquares]
  exact ⟨h, normalize_norm_bias [(3 : ℝ), 4] h⟩

/-- C3: For every raw hidden-state buffer of shape
`[batchSize, maxLength, hiddenDim] = [x, y, z]`, the `i`-th output
embedding is computed from exactly the first token's slice
`data[i*y*z : i*y*z + z]`, and each element of the output equals
`v_j / sqrt (sum v_k^2) + 1e-12` for the corresponding element `v_j` of
that slice (epsilon added after division). -/
theorem getEmbeddings_first_token_slice (data : List ℝ) (x y z i j : Nat)
    (hy : 0 < y) (hlen : data.length = x * y * z) (hi : i < x) (hj : j < z) :
    (getEmbeddings data x y z)[i]? =
      some (normalize (goSlice data (i * y * z) (i * y * z + z))) ∧
    ∃ vj, (goSlice data (i * y * z) (i * y * z + z))[j]? = some vj ∧
      (normalize (goSlice data (i * y * z) (i * y * z + z)))[j]? =
        some (vj / Real.sqrt (sumSquares (goSlice data (i * y * z) (i * y * z + z))) +
          epsilon) := by
  have hslice_len : (goSlice data (i * y * z) (i * y * z + z)).length = z := by
    rw [goSlice_length]
    have h2 : (i + 1) * (y * z) ≤ x * (y * z) := Nat.mul_le_mul_right _ (by omega)
    have h3 : i * y * z = i * (y * z) := by ring
    have h4 : z ≤ y * z := Nat.le_mul_of_pos_left z hy
    have h5 : (i + 1) * (y * z) = i * (y * z) + y * z := by ring
    have h6 : x * y * z = x * (y * z) := by ring
    omega
  constructor
  · rw [getEmbeddings, List.getElem?_map]
    simp [List.getElem?_range, hi]
  · obtain ⟨vj, hvj⟩ : ∃ vj, (goSlice data (i * y * z) (i * y * z + z))[j]? = some vj :=
      ⟨_, List.getElem?_eq_getElem (by omega)⟩
    refine ⟨vj, hvj, ?_⟩
    rw [normalize, List.getElem?_map, hvj, Option.map_some']

theorem getEmbeddings_first_token_slice_witness :
    (getEmbeddings [1, 2, 3, 4, 5, 6, 7, 8] 2 2 2)[1]? =
      some (normalize (goSlice [(1 : ℝ), 2, 3, 4, 5, 6, 7, 8] (1 * 2 * 2) (1 * 2 * 2 + 2))) ∧
    ∃ vj, (goSlice [(1 : ℝ), 2, 3, 4, 5, 6, 7, 8] (1 * 2 * 2) (1 * 2 * 2 + 2))[0]? = some vj ∧
      (normalize (goSlice [(1 : ℝ), 2, 3, 4, 5, 6, 7, 8] (1 * 2 * 2) (1 * 2 * 2 + 2)))[0]? =
        some (vj / Real.sqrt (sumSquares
          (goSlice [(1 : ℝ), 2, 3, 4, 5, 6, 7, 8] (1 * 2 * 2) (1 * 2 * 2 + 2))) + epsilon) :=
  getEmbeddings_first_token_slice [1, 2, 3, 4, 5, 6, 7, 8] 2 2 2 1 0 (by omega) (by rfl)
    (by omega) (by omega)

/-! ## Facts about the float32 special-value model -/

lemma foldl_addsq_zeros : ∀ (v : List F), (∀ x ∈ v, x = F.fin 0) → ∀ (a : ℝ),
    v.foldl (fun acc x => acc.add (x.mul x)) (F.fin a) = F.fin a := by
  intro v
  induction v with
  | nil => intro _ a; rfl
  | cons x l ih =>
    intro hv a
    have hx : x = F.fin 0 := hv x (List.mem_cons_self x l)
    rw [List.foldl_cons, hx]
    have hstep : (F.fin a).add ((F.fin 0).mul (F.fin 0)) = F.fin a := by
      simp [F.add, F.mul]
    rw [hstep]
    exact ih (fun y hy => hv y (List.mem_cons_of_mem x hy)) a

lemma foldl_addsq_fin (v : List ℝ) : ∀ a : ℝ,
    (v.map F.fin).foldl (fun acc x => acc.add (x.mul x)) (F.fin a) =
      F.fin (a + sumSquares v) := by
  induction v with
  | nil => intro a; simp [sumSquares]
  | cons x l ih =>
    intro a
    simp only [List.map_cons, List.foldl_cons]
    rw [show (F.fin a).add ((F.fin x).mul (F.fin x)) = F.fin (a + x * x) from rfl, ih,
      sumSquares_cons]
    congr 1
    ring

/-- On finite inputs with nonzero norm, the `float32` special-value model
of `normalize` agrees with the real-valued model. -/
theorem normalizeF_agrees_on_finite (v : List ℝ) (hv : sumSquares v ≠ 0) :
    normalizeF (v.map F.fin) = (normalize v).map F.fin := by
  have hS0 : 0 ≤ sumSquares v := sumSquares_nonneg v
  have hs : sumSquaresF (v.map F.fin) = F.fin (sumSquares v) := by
    rw [sumSquaresF, foldl_addsq_fin]
    norm_num
  have hsq : (sumSquaresF (v.map F.fin)).sqrt = F.fin (Real.sqrt (sumSquares v)) := by
    rw [hs]
    simp [F.sqrt, not_lt.2 hS0]
  have hnz : Real.sqrt (sumSquares v) ≠ 0 :=
    ne_of_gt (Real.sqrt_pos.2 (lt_of_le_of_ne hS0 (Ne.symm hv)))
  rw [normalizeF, normalize, hsq, List.map_map, List.map_map]
  refine List.map_congr_left ?_
  intro x hx
  simp only [Function.comp_apply]
  rw [show (F.fin x).div (F.fin (Real.sqrt (sumSquares v))) =
      F.fin (x / Real.sqrt (sumSquares v)) from by simp [F.div, hnz]]
  rfl

/-- C9: The normalization function divides by the computed norm without
any guard: for an all-zero input vector the norm is 0 and every output
element is the non-finite result of `0/0` plus epsilon (`NaN`), so
degenerate inputs produce non-finite embedding values rather than an
error. -/
theorem normalize_zero_vector_nan (v : List F) (hv : ∀ x ∈ v, x = F.fin 0) :
    (sumSquaresF v).sqrt = F.fin 0 ∧
    normalizeF v = List.replicate v.length F.nan := by
  have hs : sumSquaresF v = F.fin 0 := foldl_addsq_zeros v hv 0
  have hsq : (sumSquaresF v).sqrt = F.fin 0 := by
    rw [hs]
    simp [F.sqrt]
  refine ⟨hsq, ?_⟩
  rw [normalizeF]
  refine List.eq_replicate_iff.2 ⟨by simp, ?_⟩
  intro b hb
  obtain ⟨xx, hxx, rfl⟩ := List.mem_map.1 hb
  rw [hv xx hxx, hsq]
  simp [F.div, F.add, epsilonF]

theorem normalize_zero_vector_nan_witness :
    (sumSquaresF [F.fin 0, F.fin 0, F.fin 0]).sqrt = F.fin 0 ∧
    normalizeF [F.fin 0, F.fin 0, F.fin 0] =
      List.replicate ([F.fin 0, F.fin 0, F.fin 0] : List F).length F.nan :=
  normalize_zero_vector_nan [F.fin 0, F.fin 0, F.fin 0] (by
    intro x hx
    rcases List.mem_cons.1 hx with rfl | hx2
    · rfl
    rcases List.mem_cons.1 hx2 with rfl | hx3
    · rfl
    rcases List.mem_cons.1 hx3 with rfl | hx4
    · rfl
    exact absurd hx4 (List.not_mem_nil x))

end Fastembed
